import Mathlib

/-!
Verification of `src/server/scripts/analyze-frames.py` (BaudAgain).

The script removes SGR-style ANSI escape sequences (regex `\x1b\[[0-9;]*m`)
from each line of a file, reports raw/visible lengths and escape counts per
line, and aggregates the visible widths of the non-blank lines into a
min/max consistency verdict.  Strings are modelled as `List Char` (Python
`str` is a sequence of Unicode code points, as is `List Char` here), and
`re.sub`/`re.findall` for this one fixed pattern are modelled by an explicit
left-to-right scan: at each position the pattern `ESC '[' [0-9;]* 'm'`
either matches (greedily, which for this pattern is unambiguous because
`'m'` is not a digit or semicolon) or the scan advances one character.
-/

namespace AnalyzeFrames

/-- Character class `[0-9;]` of the regex. -/
def isCode (c : Char) : Bool := c.isDigit || c == ';'

/-- Whole-string match of the regex `\x1b\[[0-9;]*m`: the string is exactly
`ESC '[' <digits-or-semicolons>* 'm'`. -/
def isPat (t : List Char) : Bool :=
  match t with
  | c :: l :: rest => c == '\x1b' && l == '[' && (rest.dropWhile isCode == ['m'])
  | _ => false

/-- Attempt to match the regex `\x1b\[[0-9;]*m` at the head of the string, as
Python's regex engine does at each scan position: after `ESC '['` the greedy
`[0-9;]*` consumes the maximal run of digits/semicolons, and the match
succeeds exactly when the next character is `'m'` (no shorter run can succeed
because every run character differs from `'m'`).  Returns the matched span
and the remainder. -/
def headMatch (s : List Char) : Option (List Char × List Char) :=
  match s with
  | c :: l :: rest =>
    if c = '\x1b' then
      if l = '[' then
        match rest.dropWhile isCode with
        | m :: r => if m = 'm' then some (c :: l :: (rest.takeWhile isCode ++ [m]), r) else none
        | [] => none
      else none
    else none
  | _ => none

/-- Fueled scan for `re.sub(r'\x1b\[[0-9;]*m', '', text)`: find the leftmost
match, delete it, continue after it; characters at non-matching positions are
kept.  Fuel only serves to make the recursion structural; `strip_ansi` always
supplies enough. -/
def stripGo : Nat → List Char → List Char
  | 0, s => s
  | _ + 1, [] => []
  | f + 1, c :: cs =>
    match headMatch (c :: cs) with
    | some (_, r) => stripGo f r
    | none => c :: stripGo f cs

/-- Model of `strip_ansi` (line 9 of the script):
`re.sub(r'\x1b\[[0-9;]*m', '', text)`. -/
def strip_ansi (s : List Char) : List Char := stripGo s.length s

/-- Fueled scan for `len(re.findall(r'\x1b\[[0-9;]*m', line))`: count the
non-overlapping matches found by the same left-to-right scan. -/
def countGo : Nat → List Char → Nat
  | 0, _ => 0
  | _ + 1, [] => 0
  | f + 1, c :: cs =>
    match headMatch (c :: cs) with
    | some (_, r) => countGo f r + 1
    | none => countGo f cs

/-- Model of the escape count `len(re.findall(r'\x1b\[[0-9;]*m', line))`
(line 30 of the script). -/
def count_ansi (s : List Char) : Nat := countGo s.length s

/-! ### Basic facts about the head match -/

theorem isCode_m : isCode 'm' = false := by decide

theorem isCode_esc : isCode '\x1b' = false := by decide

theorem dropWhile_append_all {w t : List Char} (h : ∀ c ∈ w, isCode c = true) :
    (w ++ t).dropWhile isCode = t.dropWhile isCode := by
  induction w with
  | nil => rfl
  | cons c w ih =>
    have hc : isCode c = true := h c (by simp)
    simp only [List.cons_append, List.dropWhile_cons, hc, if_true]
    exact ih (fun x hx => h x (by simp [hx]))

theorem takeWhile_append_all {w t : List Char} (h : ∀ c ∈ w, isCode c = true)
    (ht : t.takeWhile isCode = []) : (w ++ t).takeWhile isCode = w := by
  induction w with
  | nil => exact ht
  | cons c w ih =>
    have hc : isCode c = true := h c (by simp)
    simp only [List.cons_append, List.takeWhile_cons, hc, if_true]
    rw [ih (fun x hx => h x (by simp [hx]))]

theorem dropWhile_eq_m_iff {rest : List Char} :
    rest.dropWhile isCode = ['m'] ↔
      ∃ w, (∀ c ∈ w, isCode c = true) ∧ rest = w ++ ['m'] := by
  constructor
  · intro h
    refine ⟨rest.takeWhile isCode, fun c hc => List.mem_takeWhile_imp hc, ?_⟩
    conv_lhs => rw [← List.takeWhile_append_dropWhile (p := isCode) (l := rest)]
    rw [h]
  · rintro ⟨w, hw, rfl⟩
    rw [dropWhile_append_all hw]
    simp [List.dropWhile_cons, isCode_m]

/-- Shape characterization of a whole-string regex match. -/
theorem isPat_iff {t : List Char} :
    isPat t = true ↔
      ∃ w, (∀ c ∈ w, isCode c = true) ∧ t = '\x1b' :: '[' :: (w ++ ['m']) := by
  constructor
  · intro h
    match t with
    | [] => simp [isPat] at h
    | [c] => simp [isPat] at h
    | c :: l :: rest =>
      simp only [isPat, Bool.and_eq_true, beq_iff_eq] at h
      obtain ⟨⟨rfl, rfl⟩, hd⟩ := h
      obtain ⟨w, hw, rfl⟩ := dropWhile_eq_m_iff.mp hd
      exact ⟨w, hw, rfl⟩
  · rintro ⟨w, hw, rfl⟩
    have hd : (w ++ ['m']).dropWhile isCode = ['m'] := dropWhile_eq_m_iff.mpr ⟨w, hw, rfl⟩
    simp [isPat, hd]

theorem isPat_length {t : List Char} (h : isPat t = true) : 3 ≤ t.length := by
  obtain ⟨w, -, rfl⟩ := isPat_iff.mp h
  simp

/-- A successful head match yields a whole-pattern span and the exact
remainder of the string. -/
theorem headMatch_some {s p r : List Char} (h : headMatch s = some (p, r)) :
    isPat p = true ∧ s = p ++ r := by
  match s with
  | [] => simp [headMatch] at h
  | [c] => simp [headMatch] at h
  | c :: l :: rest =>
    by_cases hc : c = '\x1b'
    case neg => simp [headMatch, hc] at h
    by_cases hl : l = '['
    case neg => simp [headMatch, hc, hl] at h
    subst hc; subst hl
    rcases hd : rest.dropWhile isCode with - | ⟨m, r'⟩
    · simp [headMatch, hd] at h
    by_cases hm : m = 'm'
    case neg => simp [headMatch, hd, hm] at h
    subst hm
    have hev : headMatch ('\x1b' :: '[' :: rest)
        = some ('\x1b' :: '[' :: (rest.takeWhile isCode ++ ['m']), r') := by
      simp [headMatch, hd]
    rw [hev, Option.some_inj] at h
    injection h with h1 h2
    subst h1; subst h2
    constructor
    · exact isPat_iff.mpr
        ⟨rest.takeWhile isCode, fun x hx => List.mem_takeWhile_imp hx, rfl⟩
    · have : rest = rest.takeWhile isCode ++ ('m' :: r') := by
        conv_lhs => rw [← List.takeWhile_append_dropWhile (p := isCode) (l := rest)]
        rw [hd]
      conv_lhs => rw [this]
      simp

/-- The head match consumes at least one character. -/
theorem headMatch_len {s p r : List Char} (h : headMatch s = some (p, r)) :
    r.length < s.length := by
  obtain ⟨hp, rfl⟩ := headMatch_some h
  have := isPat_length hp
  simp; omega

/-- A pattern at the head of a string is matched exactly. -/
theorem headMatch_pat {p : List Char} (hp : isPat p = true) (r : List Char) :
    headMatch (p ++ r) = some (p, r) := by
  obtain ⟨w, hw, rfl⟩ := isPat_iff.mp hp
  have hdw : (w ++ 'm' :: r).dropWhile isCode = 'm' :: r := by
    rw [dropWhile_append_all hw]
    simp [List.dropWhile_cons, isCode_m]
  have htw : (w ++ 'm' :: r).takeWhile isCode = w := by
    apply takeWhile_append_all hw
    simp [List.takeWhile_cons, isCode_m]
  simp [headMatch, hdw, htw]

/-- Head matches only start with the escape character. -/
theorem headMatch_none_of_ne {c : Char} (hc : c ≠ '\x1b') (cs : List Char) :
    headMatch (c :: cs) = none := by
  cases cs with
  | nil => rfl
  | cons l rest => simp [headMatch, hc]

theorem headMatch_nil : headMatch [] = none := rfl

/-! ### Scan unfolding lemmas: the fuel is irrelevant once sufficient -/

theorem stripGo_nil (f : Nat) : stripGo f [] = [] := by cases f <;> rfl

theorem countGo_nil (f : Nat) : countGo f [] = 0 := by cases f <;> rfl

theorem stripGo_congr :
    ∀ f g (s : List Char), s.length ≤ f → s.length ≤ g → stripGo f s = stripGo g s := by
  intro f
  induction f with
  | zero =>
    intro g s hf _
    have : s = [] := by cases s with
      | nil => rfl
      | cons c cs => simp at hf
    subst this
    rw [stripGo_nil, stripGo_nil]
  | succ f ih =>
    intro g s hf hg
    cases s with
    | nil => rw [stripGo_nil, stripGo_nil]
    | cons c cs =>
      cases g with
      | zero => simp at hg
      | succ g =>
        simp only [stripGo]
        cases hm : headMatch (c :: cs) with
        | some pr =>
          obtain ⟨p, r⟩ := pr
          have hlen := headMatch_len hm
          simp only [List.length_cons] at hf hg hlen
          exact ih g r (by omega) (by omega)
        | none =>
          simp only [List.length_cons] at hf hg
          exact congrArg (c :: ·) (ih g cs (by omega) (by omega))

theorem countGo_congr :
    ∀ f g (s : List Char), s.length ≤ f → s.length ≤ g → countGo f s = countGo g s := by
  intro f
  induction f with
  | zero =>
    intro g s hf _
    have : s = [] := by cases s with
      | nil => rfl
      | cons c cs => simp at hf
    subst this
    rw [countGo_nil, countGo_nil]
  | succ f ih =>
    intro g s hf hg
    cases s with
    | nil => rw [countGo_nil, countGo_nil]
    | cons c cs =>
      cases g with
      | zero => simp at hg
      | succ g =>
        simp only [countGo]
        cases hm : headMatch (c :: cs) with
        | some pr =>
          obtain ⟨p, r⟩ := pr
          have hlen := headMatch_len hm
          simp only [List.length_cons] at hf hg hlen
          exact congrArg (· + 1) (ih g r (by omega) (by omega))
        | none =>
          simp only [List.length_cons] at hf hg
          exact ih g cs (by omega) (by omega)

theorem strip_ansi_nil : strip_ansi [] = [] := rfl

theorem strip_ansi_match {s p r : List Char} (h : headMatch s = some (p, r)) :
    strip_ansi s = strip_ansi r := by
  cases s with
  | nil => rw [headMatch_nil] at h; exact absurd h (by simp)
  | cons c cs =>
    have hlen := headMatch_len h
    simp only [List.length_cons] at hlen
    unfold strip_ansi
    simp only [List.length_cons, stripGo, h]
    exact stripGo_congr cs.length r.length r (by omega) le_rfl

theorem strip_ansi_nomatch {c : Char} {cs : List Char} (h : headMatch (c :: cs) = none) :
    strip_ansi (c :: cs) = c :: strip_ansi cs := by
  unfold strip_ansi
  simp only [List.length_cons, stripGo, h]

theorem count_ansi_nil : count_ansi [] = 0 := rfl

theorem count_ansi_match {s p r : List Char} (h : headMatch s = some (p, r)) :
    count_ansi s = count_ansi r + 1 := by
  cases s with
  | nil => rw [headMatch_nil] at h; exact absurd h (by simp)
  | cons c cs =>
    have hlen := headMatch_len h
    simp only [List.length_cons] at hlen
    unfold count_ansi
    simp only [List.length_cons, countGo, h]
    exact congrArg (· + 1) (countGo_congr cs.length r.length r (by omega) le_rfl)

theorem count_ansi_nomatch {c : Char} {cs : List Char} (h : headMatch (c :: cs) = none) :
    count_ansi (c :: cs) = count_ansi cs := by
  unfold count_ansi
  simp only [List.length_cons, countGo, h]

/-- Induction along the scan: either the pattern matches at the head and the
scan continues after the match, or it does not and the scan advances one
character. -/
theorem scan_ind (P : List Char → Prop) (h0 : P [])
    (h1 : ∀ c cs p r, headMatch (c :: cs) = some (p, r) → P r → P (c :: cs))
    (h2 : ∀ c cs, headMatch (c :: cs) = none → P cs → P (c :: cs)) :
    ∀ s, P s := by
  have key : ∀ n (t : List Char), t.length ≤ n → P t := by
    intro n
    induction n with
    | zero =>
      intro t h
      cases t with
      | nil => exact h0
      | cons c cs => simp at h
    | succ n ih =>
      intro t h
      cases t with
      | nil => exact h0
      | cons c cs =>
        cases hm : headMatch (c :: cs) with
        | some pr =>
          obtain ⟨p, r⟩ := pr
          have hlen := headMatch_len hm
          simp only [List.length_cons] at h hlen
          exact h1 c cs p r hm (ih r (by omega))
        | none =>
          simp only [List.length_cons] at h
          exact h2 c cs hm (ih cs (by omega))
  exact fun s => key s.length s le_rfl

/-! ### Prepending a pattern or escape-free text to a string -/

theorem strip_ansi_pat {p : List Char} (hp : isPat p = true) (r : List Char) :
    strip_ansi (p ++ r) = strip_ansi r :=
  strip_ansi_match (headMatch_pat hp r)

theorem count_ansi_pat {p : List Char} (hp : isPat p = true) (r : List Char) :
    count_ansi (p ++ r) = count_ansi r + 1 :=
  count_ansi_match (headMatch_pat hp r)

theorem strip_ansi_noesc {t : List Char} (ht : '\x1b' ∉ t) (r : List Char) :
    strip_ansi (t ++ r) = t ++ strip_ansi r := by
  induction t with
  | nil => rfl
  | cons c t ih =>
    have hc : c ≠ '\x1b' := fun h => ht (by simp [h])
    have hrec : '\x1b' ∉ t := fun h => ht (by simp [h])
    rw [List.cons_append, strip_ansi_nomatch (headMatch_none_of_ne hc _), ih hrec,
      List.cons_append]

theorem count_ansi_noesc {t : List Char} (ht : '\x1b' ∉ t) (r : List Char) :
    count_ansi (t ++ r) = count_ansi r := by
  induction t with
  | nil => rfl
  | cons c t ih =>
    have hc : c ≠ '\x1b' := fun h => ht (by simp [h])
    have hrec : '\x1b' ∉ t := fun h => ht (by simp [h])
    rw [List.cons_append, count_ansi_nomatch (headMatch_none_of_ne hc _), ih hrec]

/-! ### Per-line analysis, file-level aggregation, and the driver -/

/-- Model of `line.rstrip('\n\r')` (lines 20 and 37 of the script): remove
every trailing character that is a newline or carriage return. -/
def rstrip_nl (s : List Char) : List Char :=
  (s.reverse.dropWhile fun c => c == '\n' || c == '\r').reverse

/-- The per-line measurements printed by the script (lines 18-32): raw length
after newline removal, stripped text, visible length, and escape count. -/
structure LineRecord where
  raw_len : Nat
  stripped : List Char
  visual_len : Nat
  ansi_codes : Nat
deriving DecidableEq

/-- Model of the per-line analysis in the first loop of `analyze_frame`
(lines 18-32 of the script). -/
def analyze_line (line : List Char) : LineRecord :=
  let l := rstrip_nl line
  { raw_len := l.length
    stripped := strip_ansi l
    visual_len := (strip_ansi l).length
    ansi_codes := count_ansi l }

/-- Model of the `visual_widths` accumulation (lines 35-40 of the script):
visible lengths of the lines whose stripped text is non-empty, in order. -/
def visual_widths (lines : List (List Char)) : List Nat :=
  lines.filterMap fun line =>
    let stripped := strip_ansi (rstrip_nl line)
    if stripped.isEmpty then none else some stripped.length

/-- Outcome of the width-consistency check (lines 42-49 of the script):
nothing is printed when there are no samples; otherwise the min/max range is
printed followed by either the inconsistency warning with the difference or
the consistency confirmation. -/
inductive WidthVerdict where
  | noSamples
  | inconsistent (mn mx diff : Nat)
  | consistent (mn mx : Nat)
deriving DecidableEq

/-- Model of the aggregation at the end of `analyze_frame` (lines 42-49):
Python's `min`/`max` of a non-empty list fold over its elements. -/
def width_verdict (lines : List (List Char)) : WidthVerdict :=
  match visual_widths lines with
  | [] => .noSamples
  | w :: ws =>
    let mn := ws.foldl min w
    let mx := ws.foldl max w
    if mn ≠ mx then .inconsistent mn mx (mx - mn) else .consistent mn mx

/-- Model of `analyze_frame` applied to the lines of a file: the per-line
records, and the width verdict. -/
def analyze_frame (lines : List (List Char)) : List LineRecord × WidthVerdict :=
  (lines.map analyze_line, width_verdict lines)

/-- Universal-newline translation performed by `open(filename, 'r')` in text
mode: `\r\n` and bare `\r` both become `\n`. -/
def translate_newlines : List Char → List Char
  | [] => []
  | '\r' :: '\n' :: rest => '\n' :: translate_newlines rest
  | '\r' :: rest => '\n' :: translate_newlines rest
  | c :: rest => c :: translate_newlines rest

/-- Split into lines keeping the terminators, as `f.readlines()` does after
newline translation. -/
def readlinesAux : List Char → List Char → List (List Char)
  | [], acc => if acc.isEmpty then [] else [acc.reverse]
  | c :: cs, acc =>
    if c = '\n' then (acc.reverse ++ ['\n']) :: readlinesAux cs []
    else readlinesAux cs (c :: acc)

/-- Model of `f.readlines()` on the decoded file content (line 14). -/
def readlines (content : List Char) : List (List Char) :=
  readlinesAux (translate_newlines content) []

/-- Observable outcome of the driver for one file: either the report of
`analyze_frame`, or the single `Error analyzing <path>: ...` line that the
`except` branch prints for that path. -/
inductive DriverOut where
  | report (name : String) (result : List LineRecord × WidthVerdict)
  | error (name : String)
deriving DecidableEq

/-- Model of the `__main__` loop (lines 51-57): the file system is a partial
map from paths to decoded contents, `none` meaning that opening, reading or
decoding the file raises; the loop analyzes each path in order, catching the
failure at the per-file boundary and emitting the error line instead. -/
def run_driver (fs : String → Option (List Char)) (files : List String) : List DriverOut :=
  files.map fun f =>
    match fs f with
    | some content => .report f (analyze_frame (readlines content))
    | none => .error f

/-! ### Occurrences of the pattern inside a string -/

/-- An occurrence of the regex pattern in `s`: a substring instance starting
at position `i` with length `l`. -/
def occAt (s : List Char) (i l : Nat) : Prop :=
  i + l ≤ s.length ∧ isPat ((s.drop i).take l) = true

/-- Position `j` of `s` lies inside some occurrence of the pattern. -/
def coveredP (s : List Char) (j : Nat) : Prop :=
  ∃ i l, occAt s i l ∧ i ≤ j ∧ j < i + l

/-- Executable version of `coveredP`: the start and length of an occurrence
are bounded by the length of the string. -/
def coveredB (s : List Char) (j : Nat) : Bool :=
  (List.range (s.length + 1)).any fun i =>
    (List.range (s.length + 1)).any fun l =>
      decide (i + l ≤ s.length) && isPat ((s.drop i).take l) &&
        decide (i ≤ j) && decide (j < i + l)

theorem coveredB_iff {s : List Char} {j : Nat} : coveredB s j = true ↔ coveredP s j := by
  unfold coveredB coveredP occAt
  simp only [List.any_eq_true, List.mem_range, Bool.and_eq_true, decide_eq_true_eq]
  constructor
  · rintro ⟨i, -, l, -, ⟨⟨h1, h2⟩, h3⟩, h4⟩
    exact ⟨i, l, ⟨h1, h2⟩, h3, h4⟩
  · rintro ⟨i, l, ⟨h1, h2⟩, h3, h4⟩
    exact ⟨i, by omega, l, by omega, ⟨⟨h1, h2⟩, h3⟩, h4⟩

/-- The characters of `s` that belong to no occurrence of the pattern, in
their original order. -/
def uncovChars (s : List Char) : List Char :=
  ((List.range s.length).filter fun j => !coveredB s j).map fun j => s.getD j ' '

/-- A whole-pattern match cannot be a proper prefix of another one: the
closing `'m'` of the shorter match would have to be a digit or semicolon of
the longer one. -/
theorem isPat_append_eq {p u : List Char} (hp : isPat p = true)
    (hpu : isPat (p ++ u) = true) : u = [] := by
  obtain ⟨w1, -, rfl⟩ := isPat_iff.mp hp
  obtain ⟨w2, hw2, h2⟩ := isPat_iff.mp hpu
  simp only [List.cons_append] at h2
  injection h2 with hh1 h2
  injection h2 with hh2 h2
  have hlen : w1.length + 1 + u.length = w2.length + 1 := by
    have := congrArg List.length h2
    simp at this
    omega
  rcases Nat.lt_or_ge w1.length w2.length with hlt | hge
  · exfalso
    have hm' : ((w1 ++ ['m']) ++ u)[w1.length]? = some 'm' := by
      rw [List.getElem?_append_left (by simp)]
      exact List.getElem?_concat_length w1 'm'
    rw [h2] at hm'
    rw [List.getElem?_append_left (by omega)] at hm'
    have hmem : 'm' ∈ w2 := List.getElem?_mem hm'
    have := hw2 'm' hmem
    rw [isCode_m] at this
    exact absurd this (by simp)
  · have : u.length = 0 := by omega
    exact List.length_eq_zero.mp this

/-- At a fixed position there is at most one occurrence length. -/
theorem occAt_zero_unique {s : List Char} {l l' : Nat}
    (h : occAt s 0 l) (h' : occAt s 0 l') : l = l' := by
  suffices key : ∀ a b, a ≤ b → occAt s 0 a → occAt s 0 b → a = b by
    rcases Nat.le_total l l' with hle | hle
    · exact key l l' hle h h'
    · exact (key l' l hle h' h).symm
  rintro a b hab ⟨ha1, ha2⟩ ⟨hb1, hb2⟩
  rw [List.drop_zero] at ha2 hb2
  have hsplit : s.take b = s.take a ++ (s.drop a).take (b - a) := by
    have := List.take_add s a (b - a)
    rwa [Nat.add_sub_cancel' hab] at this
  rw [hsplit] at hb2
  have hnil := isPat_append_eq ha2 hb2
  rcases List.take_eq_nil_iff.mp hnil with h0 | hdrop
  · omega
  · have : s.length ≤ a := by
      have := congrArg List.length hdrop
      simp at this
      omega
    omega

/-- The first character of an occurrence is the escape character. -/
theorem occAt_head {s : List Char} {i l : Nat} (h : occAt s i l) :
    s[i]? = some '\x1b' := by
  obtain ⟨hle, hpat⟩ := h
  obtain ⟨w, -, hshape⟩ := isPat_iff.mp hpat
  have hdec : s.drop i = ((s.drop i).take l) ++ ((s.drop i).drop l) :=
    (List.take_append_drop l (s.drop i)).symm
  rw [hshape] at hdec
  rw [← List.head?_drop, hdec]
  rfl

/-- No occurrence starts strictly inside a pattern placed at the front. -/
theorem no_occ_inside {p r : List Char} (hp : isPat p = true) {i l : Nat}
    (h1 : 0 < i) (h2 : i < p.length) : ¬ occAt (p ++ r) i l := by
  intro hocc
  have hesc := occAt_head hocc
  rw [List.getElem?_append_left h2] at hesc
  obtain ⟨w, hw, rfl⟩ := isPat_iff.mp hp
  match i, h1 with
  | 1, _ => simp at hesc
  | (k + 2), _ =>
    have hstep : ('\x1b' :: '[' :: (w ++ ['m']))[k + 2]? = (w ++ ['m'])[k]? := by
      simp
    rw [hstep] at hesc
    have hmem : '\x1b' ∈ w ++ ['m'] := List.getElem?_mem hesc
    rcases List.mem_append.mp hmem with hw' | hm'
    · have := hw _ hw'
      rw [isCode_esc] at this
      exact absurd this (by simp)
    · simp at hm'

/-- The occurrence of a front pattern covers its whole span. -/
theorem covered_lt_match {p r : List Char} (hp : isPat p = true) {j : Nat}
    (hj : j < p.length) : coveredP (p ++ r) j := by
  refine ⟨0, p.length, ⟨by simp, ?_⟩, by omega, by omega⟩
  rw [List.drop_zero, List.take_left]
  exact hp

/-- Occurrences beyond a front pattern are exactly the occurrences of the
remainder: none straddles the pattern boundary. -/
theorem covered_shift_match {p r : List Char} (hp : isPat p = true) (j : Nat) :
    coveredP (p ++ r) (p.length + j) ↔ coveredP r j := by
  constructor
  · rintro ⟨i, l, hocc, hij, hjl⟩
    rcases Nat.lt_or_ge i p.length with hi | hi
    · rcases Nat.eq_zero_or_pos i with rfl | hpos
      · have h0 : occAt (p ++ r) 0 p.length := by
          refine ⟨by simp, ?_⟩
          rw [List.drop_zero, List.take_left]
          exact hp
        have := occAt_zero_unique hocc h0
        omega
      · exact absurd hocc (no_occ_inside hp hpos hi)
    · obtain ⟨i', rfl⟩ := Nat.exists_eq_add_of_le hi
      refine ⟨i', l, ⟨?_, ?_⟩, by omega, by omega⟩
      · obtain ⟨hle, -⟩ := hocc
        simp at hle
        omega
      · obtain ⟨-, hpat⟩ := hocc
        rwa [List.drop_append] at hpat
  · rintro ⟨i, l, ⟨hle, hpat⟩, hij, hjl⟩
    refine ⟨p.length + i, l, ⟨by simp; omega, ?_⟩, by omega, by omega⟩
    rwa [List.drop_append]

/-- When the head does not match, position 0 is uncovered and the covered
positions shift down by one. -/
theorem covered_shift_cons {c : Char} {cs : List Char}
    (h : headMatch (c :: cs) = none) :
    ¬ coveredP (c :: cs) 0 ∧ ∀ j, (coveredP (c :: cs) (j + 1) ↔ coveredP cs j) := by
  have hzero : ∀ l, ¬ occAt (c :: cs) 0 l := by
    rintro l ⟨hle, hpat⟩
    rw [List.drop_zero] at hpat
    have hdec : c :: cs = ((c :: cs).take l) ++ ((c :: cs).drop l) :=
      (List.take_append_drop l (c :: cs)).symm
    have hm := headMatch_pat hpat ((c :: cs).drop l)
    rw [← hdec, h] at hm
    exact absurd hm (by simp)
  constructor
  · rintro ⟨i, l, hocc, hij, hjl⟩
    have : i = 0 := by omega
    subst this
    exact hzero l hocc
  · intro j
    constructor
    · rintro ⟨i, l, hocc, hij, hjl⟩
      cases i with
      | zero => exact absurd hocc (hzero l)
      | succ i =>
        refine ⟨i, l, ?_, by omega, by omega⟩
        obtain ⟨hle, hpat⟩ := hocc
        rw [List.drop_succ_cons] at hpat
        refine ⟨?_, hpat⟩
        simp at hle
        omega
    · rintro ⟨i, l, ⟨hle, hpat⟩, hij, hjl⟩
      refine ⟨i + 1, l, ⟨by simp; omega, by rwa [List.drop_succ_cons]⟩, by omega, by omega⟩

theorem bool_of_iff {a b : Bool} (h : a = true ↔ b = true) : a = b := by
  cases a <;> cases b <;> simp_all

theorem uncovChars_nil : uncovChars [] = [] := rfl

theorem uncovChars_match {p r : List Char} (hp : isPat p = true) :
    uncovChars (p ++ r) = uncovChars r := by
  unfold uncovChars
  have hlen : (p ++ r).length = p.length + r.length := by simp
  rw [hlen, List.range_add, List.filter_append]
  have h1 : (List.range p.length).filter (fun j => !coveredB (p ++ r) j) = [] := by
    apply List.filter_eq_nil_iff.mpr
    intro j hj
    rw [List.mem_range] at hj
    have hc : coveredB (p ++ r) j = true := coveredB_iff.mpr (covered_lt_match hp hj)
    simp [hc]
  rw [h1, List.nil_append, List.filter_map, List.map_map]
  have hfilter : (List.range r.length).filter ((fun j => !coveredB (p ++ r) j) ∘ (p.length + ·))
      = (List.range r.length).filter (fun j => !coveredB r j) := by
    apply List.filter_congr
    intro j hj
    have : coveredB (p ++ r) (p.length + j) = coveredB r j :=
      bool_of_iff (coveredB_iff.trans ((covered_shift_match hp j).trans coveredB_iff.symm))
    simp [Function.comp, this]
  rw [hfilter]
  apply List.map_congr_left
  intro j hj
  simp only [Function.comp_apply]
  rw [List.getD_eq_getElem?_getD, List.getD_eq_getElem?_getD,
    List.getElem?_append_right (by omega : p.length ≤ p.length + j)]
  simp

theorem uncovChars_nomatch {c : Char} {cs : List Char}
    (h : headMatch (c :: cs) = none) :
    uncovChars (c :: cs) = c :: uncovChars cs := by
  obtain ⟨h0, hshift⟩ := covered_shift_cons h
  unfold uncovChars
  rw [List.length_cons, List.range_succ_eq_map]
  have hc0 : (!coveredB (c :: cs) 0) = true := by
    have : coveredB (c :: cs) 0 = false := by
      cases hb : coveredB (c :: cs) 0
      · rfl
      · exact absurd (coveredB_iff.mp hb) h0
    simp [this]
  rw [List.filter_cons_of_pos (p := fun j => !coveredB (c :: cs) j) hc0,
    List.filter_map, List.map_cons, List.map_map]
  have hfilter : (List.range cs.length).filter ((fun j => !coveredB (c :: cs) j) ∘ Nat.succ)
      = (List.range cs.length).filter (fun j => !coveredB cs j) := by
    apply List.filter_congr
    intro j hj
    have : coveredB (c :: cs) (j + 1) = coveredB cs j :=
      bool_of_iff (coveredB_iff.trans ((hshift j).trans coveredB_iff.symm))
    simp [Function.comp, Nat.succ_eq_add_one, this]
  rw [hfilter]
  have hhead : (c :: cs).getD 0 ' ' = c := List.getD_cons_zero
  rw [hhead]
  congr 1

/-- Main characterization of the stripper: `re.sub` with the empty
replacement deletes exactly the characters covered by occurrences of the
pattern in the original string, keeping all others in order. -/
theorem strip_eq_uncov : ∀ s, strip_ansi s = uncovChars s := by
  apply scan_ind
  · rw [strip_ansi_nil, uncovChars_nil]
  · intro c cs p r hm ih
    obtain ⟨hp, heq⟩ := headMatch_some hm
    rw [strip_ansi_match hm, ih, heq, uncovChars_match hp]
  · intro c cs hm ih
    rw [strip_ansi_nomatch hm, uncovChars_nomatch hm, ih]

/-! ### Consequences of the scan characterization -/

theorem occAt_cons_of {c : Char} {cs : List Char} {i l : Nat}
    (h : occAt cs i l) : occAt (c :: cs) (i + 1) l := by
  obtain ⟨hle, hpat⟩ := h
  exact ⟨by simp; omega, by rwa [List.drop_succ_cons]⟩

/-- Stripping a string with no occurrence of the pattern is the identity. -/
theorem strip_of_noOcc : ∀ s : List Char, (∀ i l, ¬ occAt s i l) → strip_ansi s = s := by
  apply scan_ind (P := fun s => (∀ i l, ¬ occAt s i l) → strip_ansi s = s)
  · intro _
    exact strip_ansi_nil
  · intro c cs p r hm _ hno
    obtain ⟨hp, heq⟩ := headMatch_some hm
    exfalso
    apply hno 0 p.length
    refine ⟨by rw [heq]; simp, ?_⟩
    rw [List.drop_zero, heq, List.take_left]
    exact hp
  · intro c cs hm ih hno
    rw [strip_ansi_nomatch hm, ih]
    intro i l hocc
    exact hno (i + 1) l (occAt_cons_of hocc)

/-- The escape count of a string with no occurrence of the pattern is 0. -/
theorem count_of_noOcc : ∀ s : List Char, (∀ i l, ¬ occAt s i l) → count_ansi s = 0 := by
  apply scan_ind (P := fun s => (∀ i l, ¬ occAt s i l) → count_ansi s = 0)
  · intro _
    exact count_ansi_nil
  · intro c cs p r hm _ hno
    obtain ⟨hp, heq⟩ := headMatch_some hm
    exfalso
    apply hno 0 p.length
    refine ⟨by rw [heq]; simp, ?_⟩
    rw [List.drop_zero, heq, List.take_left]
    exact hp
  · intro c cs hm ih hno
    rw [count_ansi_nomatch hm, ih]
    intro i l hocc
    exact hno (i + 1) l (occAt_cons_of hocc)

/-- Strings shorter than the shortest pattern contain no occurrence. -/
theorem noOcc_of_short {s : List Char} (h : s.length < 3) :
    ∀ i l, ¬ occAt s i l := by
  rintro i l ⟨hle, hpat⟩
  have h3 := isPat_length hpat
  have : ((s.drop i).take l).length ≤ s.length := by
    have h1 : ((s.drop i).take l).length ≤ (s.drop i).length := by
      simp
    have h2 : (s.drop i).length ≤ s.length := by simp
    omega
  omega

/-- The stripped string is a subsequence of the input. -/
theorem strip_sublist : ∀ s : List Char, (strip_ansi s).Sublist s := by
  apply scan_ind
  · rw [strip_ansi_nil]
  · intro c cs p r hm ih
    obtain ⟨-, heq⟩ := headMatch_some hm
    rw [strip_ansi_match hm, heq]
    have hr : r.Sublist (p ++ r) := (List.nil_sublist p).append (List.Sublist.refl r)
    exact ih.trans hr
  · intro c cs hm ih
    rw [strip_ansi_nomatch hm]
    exact ih.cons₂ c

theorem length_filter_split {α : Type} (p : α → Bool) (l : List α) :
    (l.filter p).length + (l.filter fun a => !p a).length = l.length := by
  induction l with
  | nil => rfl
  | cons a l ih =>
    cases ha : p a <;> simp [List.filter_cons, ha] <;> omega

/-! ### Segment decompositions (spec property 2) -/

/-- Flatten a list of tagged segments (`true` marks a designated pattern
segment). -/
def flattenSegs (segs : List (Bool × List Char)) : List Char :=
  (segs.map Prod.snd).flatten

/-- The characters of the non-pattern segments, in order. -/
def keptSegs (segs : List (Bool × List Char)) : List Char :=
  ((segs.filter fun x => !x.1).map Prod.snd).flatten

/-- The number of designated pattern segments. -/
def numPat (segs : List (Bool × List Char)) : Nat :=
  (segs.filter fun x => x.1).length

/-- On a decomposition whose pattern segments are whole-pattern matches and
whose text segments contain no escape character, the scan removes exactly the
pattern segments and counts them. -/
theorem strip_count_segs :
    ∀ segs : List (Bool × List Char),
      (∀ x ∈ segs, (x.1 = true → isPat x.2 = true) ∧ (x.1 = false → '\x1b' ∉ x.2)) →
      strip_ansi (flattenSegs segs) = keptSegs segs ∧
        count_ansi (flattenSegs segs) = numPat segs := by
  intro segs
  induction segs with
  | nil => intro _; exact ⟨rfl, rfl⟩
  | cons x segs ih =>
    intro h
    obtain ⟨b, t⟩ := x
    have hx := h (b, t) (by simp)
    have hrest : ∀ y ∈ segs, (y.1 = true → isPat y.2 = true) ∧ (y.1 = false → '\x1b' ∉ y.2) := by
      intro y hy
      exact h y (by simp [hy])
    obtain ⟨ih1, ih2⟩ := ih hrest
    cases b with
    | true =>
      have hp : isPat t = true := hx.1 rfl
      constructor
      · rw [flattenSegs, List.map_cons, List.flatten_cons, strip_ansi_pat hp, ← flattenSegs,
          ih1]
        simp [keptSegs, List.filter_cons]
      · rw [flattenSegs, List.map_cons, List.flatten_cons, count_ansi_pat hp, ← flattenSegs,
          ih2]
        simp [numPat, List.filter_cons]
    | false =>
      have ht : '\x1b' ∉ t := hx.2 rfl
      constructor
      · rw [flattenSegs, List.map_cons, List.flatten_cons, strip_ansi_noesc ht, ← flattenSegs,
          ih1]
        simp [keptSegs, List.filter_cons]
      · rw [flattenSegs, List.map_cons, List.flatten_cons, count_ansi_noesc ht, ← flattenSegs,
          ih2]
        simp [numPat, List.filter_cons]

/-! ### Folded minimum and maximum (Python `min`/`max` of a non-empty list) -/

theorem foldl_min_mem : ∀ (ws : List Nat) (w : Nat), ws.foldl min w ∈ w :: ws := by
  intro ws
  induction ws with
  | nil => intro w; simp
  | cons a ws ih =>
    intro w
    rw [List.foldl_cons]
    rcases List.mem_cons.mp (ih (min w a)) with h | h
    · have hm : min w a = w ∨ min w a = a := by omega
      rcases hm with hm | hm <;> rw [h, hm] <;> simp
    · simp [h]

theorem foldl_min_le : ∀ (ws : List Nat) (w u : Nat), u ∈ w :: ws → ws.foldl min w ≤ u := by
  intro ws
  induction ws with
  | nil =>
    intro w u hu
    simp at hu ⊢
    omega
  | cons a ws ih =>
    intro w u hu
    rw [List.foldl_cons]
    rcases List.mem_cons.mp hu with rfl | hu'
    · have h1 : ws.foldl min (min u a) ≤ min u a := ih _ _ (by simp)
      omega
    · rcases List.mem_cons.mp hu' with rfl | hu'
      · have h1 : ws.foldl min (min w u) ≤ min w u := ih _ _ (by simp)
        omega
      · exact ih _ _ (by simp [hu'])

theorem foldl_max_mem : ∀ (ws : List Nat) (w : Nat), ws.foldl max w ∈ w :: ws := by
  intro ws
  induction ws with
  | nil => intro w; simp
  | cons a ws ih =>
    intro w
    rw [List.foldl_cons]
    rcases List.mem_cons.mp (ih (max w a)) with h | h
    · have hm : max w a = w ∨ max w a = a := by omega
      rcases hm with hm | hm <;> rw [h, hm] <;> simp
    · simp [h]

theorem foldl_le_max : ∀ (ws : List Nat) (w u : Nat), u ∈ w :: ws → u ≤ ws.foldl max w := by
  intro ws
  induction ws with
  | nil =>
    intro w u hu
    simp at hu ⊢
    omega
  | cons a ws ih =>
    intro w u hu
    rw [List.foldl_cons]
    rcases List.mem_cons.mp hu with rfl | hu'
    · have h1 : max u a ≤ ws.foldl max (max u a) := ih _ _ (by simp)
      omega
    · rcases List.mem_cons.mp hu' with rfl | hu'
      · have h1 : max w u ≤ ws.foldl max (max w u) := ih _ _ (by simp)
        omega
      · exact ih _ _ (by simp [hu'])

/-! ### Facts about `rstrip` -/

theorem rstrip_decomp (s : List Char) :
    ∃ t, s = rstrip_nl s ++ t ∧ ∀ c ∈ t, c = '\n' ∨ c = '\r' := by
  refine ⟨(s.reverse.takeWhile fun c => c == '\n' || c == '\r').reverse, ?_, ?_⟩
  · rw [rstrip_nl, ← List.reverse_append, List.takeWhile_append_dropWhile, List.reverse_reverse]
  · intro c hc
    rw [List.mem_reverse] at hc
    have := List.mem_takeWhile_imp hc
    simp at this
    tauto

theorem rstrip_last {s : List Char} {c : Char}
    (h : (rstrip_nl s).getLast? = some c) : ¬(c = '\n' ∨ c = '\r') := by
  rw [rstrip_nl, List.getLast?_reverse] at h
  have h2 := List.head?_dropWhile_not (fun c => c == '\n' || c == '\r') s.reverse
  rw [h] at h2
  simp at h2
  tauto

/-- Sample-set characterization: the width samples are exactly the visible
lengths of the lines whose stripped text is non-empty, in order. -/
theorem visual_widths_eq (lines : List (List Char)) :
    visual_widths lines =
      ((lines.map fun l => strip_ansi (rstrip_nl l)).filter fun st => !st.isEmpty).map
        List.length := by
  induction lines with
  | nil => rfl
  | cons l ls ih =>
    cases hst : (strip_ansi (rstrip_nl l)).isEmpty
    · have hne : strip_ansi (rstrip_nl l) ≠ [] := by simpa using hst
      have hstep : visual_widths (l :: ls)
          = (strip_ansi (rstrip_nl l)).length :: visual_widths ls := by
        simp [visual_widths, List.filterMap_cons, hne]
      rw [hstep, ih]
      simp [List.filter_cons, hst]
    · have he : strip_ansi (rstrip_nl l) = [] := by simpa using hst
      have hstep : visual_widths (l :: ls) = visual_widths ls := by
        simp [visual_widths, List.filterMap_cons, he]
      rw [hstep, ih]
      simp [List.filter_cons, hst]

/-! ## Claims -/

/-- C1: for every input string, `strip_ansi` removes every occurrence of the
pattern `ESC '[' (digits/semicolons)* 'm'` present in the original string and
preserves, in their original relative order, exactly the characters belonging
to no such occurrence; a string containing no occurrence is returned
unchanged. -/
theorem c1_strip_removes_occurrences :
    ∀ s : List Char, strip_ansi s = uncovChars s ∧
      ((∀ i l, ¬ occAt s i l) → strip_ansi s = s) :=
  fun s => ⟨strip_eq_uncov s, strip_of_noOcc s⟩

theorem c1_witness :
    strip_ansi ('A' :: 'B' :: []) = uncovChars ('A' :: 'B' :: []) ∧
      strip_ansi ('A' :: 'B' :: []) = ('A' :: 'B' :: []) :=
  ⟨(c1_strip_removes_occurrences ('A' :: 'B' :: [])).1,
    (c1_strip_removes_occurrences ('A' :: 'B' :: [])).2 (noOcc_of_short (by decide))⟩

/-- C2 counterexample: stripping is not idempotent on every string.  For
`"\x1b[" ++ "\x1b[0m" ++ "m"` the single pass removes the inner `"\x1b[0m"`,
splicing the surrounding text into the new occurrence `"\x1b[m"`, which a
second pass removes. -/
theorem c2_counterexample :
    strip_ansi (strip_ansi "\x1b[\x1b[0mm".data) ≠ strip_ansi "\x1b[\x1b[0mm".data := by
  decide

/-- C2 (amended): stripping is idempotent on every string whose stripped
result contains no further occurrence of the pattern; in general a single
pass can splice surrounding text into a new occurrence. -/
theorem c2_idempotent_of_clean (s : List Char)
    (h : ∀ i l, ¬ occAt (strip_ansi s) i l) :
    strip_ansi (strip_ansi s) = strip_ansi s :=
  strip_of_noOcc _ h

theorem c2_witness :
    strip_ansi (strip_ansi "\x1b[31mAB".data) = strip_ansi "\x1b[31mAB".data :=
  c2_idempotent_of_clean "\x1b[31mAB".data
    (noOcc_of_short (by decide))

/-- Content of the two-line example file of the spec (property 7). -/
def c3content : List Char := "\x1b[31mAB\x1b[0m\nCD\n".data

/-- C3 counterexample: the first line of the two-line example has raw length
11 (the five characters of `"\x1b[31m"`, two of `"AB"`, four of `"\x1b[0m"`),
not 13 as the spec asserts; the per-line raw lengths are `[11, 2]`. -/
theorem c3_counterexample :
    (analyze_frame (readlines c3content)).1.map LineRecord.raw_len ≠ [13, 2] := by
  decide

/-- C3 (amended): on the two-line example file, line 1 yields raw length 11,
visible text `"AB"`, visible length 2 and escape count 2; line 2 yields raw
length 2, visible length 2 and escape count 0; the verdict is consistent
width 2. -/
theorem c3_end_to_end :
    analyze_frame (readlines c3content) =
      ([⟨11, "AB".data, 2, 2⟩, ⟨2, "CD".data, 2, 0⟩], .consistent 2 2) := by
  decide

/-- Literal reading of claim C4: for every decomposition into designated
pattern segments and arbitrary text segments, stripping removes exactly the
pattern segments and the escape count equals their number. -/
def ClaimC4 : Prop :=
  ∀ segs : List (Bool × List Char),
    (∀ x ∈ segs, x.1 = true → isPat x.2 = true) →
    strip_ansi (flattenSegs segs) = keptSegs segs ∧
      count_ansi (flattenSegs segs) = numPat segs

/-- C4 counterexample: the claim fails for arbitrary text segments.  Take the
single text segment `"\x1b[m"` and no pattern segments: the claim demands
that stripping keep all characters and count 0 escapes, but the text itself
is an occurrence of the pattern and is removed. -/
theorem c4_counterexample : ¬ ClaimC4 := by
  intro h
  have hc := (h [(false, "\x1b[m".data)] (by decide)).1
  revert hc
  decide

/-- C4 (amended): the decomposition property holds when additionally the text
segments contain no escape character (so that no occurrence of the pattern
can arise outside the designated pattern segments): stripping then removes
exactly the pattern segments, keeps all text characters in their original
relative order, and the escape count equals the number of pattern
segments. -/
theorem c4_segments (segs : List (Bool × List Char))
    (h : ∀ x ∈ segs, (x.1 = true → isPat x.2 = true) ∧ (x.1 = false → '\x1b' ∉ x.2)) :
    strip_ansi (flattenSegs segs) = keptSegs segs ∧
      count_ansi (flattenSegs segs) = numPat segs :=
  strip_count_segs segs h

theorem c4_witness :
    strip_ansi (flattenSegs [(false, "AB".data), (true, "\x1b[31m".data), (false, "CD".data)])
        = keptSegs [(false, "AB".data), (true, "\x1b[31m".data), (false, "CD".data)] ∧
      count_ansi (flattenSegs [(false, "AB".data), (true, "\x1b[31m".data), (false, "CD".data)])
        = numPat [(false, "AB".data), (true, "\x1b[31m".data), (false, "CD".data)] :=
  c4_segments [(false, "AB".data), (true, "\x1b[31m".data), (false, "CD".data)] (by decide)

/-- C5: a string containing no occurrence of the pattern strips to itself,
its visible length equals its raw length, and its escape count is 0. -/
theorem c5_no_escape (s : List Char) (h : ∀ i l, ¬ occAt s i l) :
    strip_ansi s = s ∧ (strip_ansi s).length = s.length ∧ count_ansi s = 0 := by
  have h1 := strip_of_noOcc s h
  exact ⟨h1, by rw [h1], count_of_noOcc s h⟩

theorem c5_witness :
    strip_ansi "CD".data = "CD".data ∧
      (strip_ansi "CD".data).length = "CD".data.length ∧ count_ansi "CD".data = 0 :=
  c5_no_escape "CD".data (noOcc_of_short (by decide))

/-- C6: the width sample set contains the visible length of a line exactly
when the line's stripped text is non-empty (samples appear in line order);
when every line strips to empty the sample set is empty and no range,
warning or confirmation is emitted. -/
theorem c6_sample_set (lines : List (List Char)) :
    visual_widths lines =
      ((lines.map fun l => strip_ansi (rstrip_nl l)).filter fun st => !st.isEmpty).map
        List.length ∧
      ((∀ l ∈ lines, strip_ansi (rstrip_nl l) = []) →
        visual_widths lines = [] ∧ width_verdict lines = .noSamples) := by
  refine ⟨visual_widths_eq lines, ?_⟩
  intro hall
  have hw : visual_widths lines = [] := by
    rw [visual_widths_eq lines]
    have hfil : ((lines.map fun l => strip_ansi (rstrip_nl l)).filter
        fun st => !st.isEmpty) = [] := by
      apply List.filter_eq_nil_iff.mpr
      intro st hst
      obtain ⟨l, hl, rfl⟩ := List.mem_map.mp hst
      rw [hall l hl]
      simp
    rw [hfil]
    rfl
  refine ⟨hw, ?_⟩
  simp only [width_verdict, hw]

theorem c6_witness :
    visual_widths ["\x1b[0m".data, ([] : List Char)] = [] ∧
      width_verdict ["\x1b[0m".data, ([] : List Char)] = .noSamples :=
  (c6_sample_set ["\x1b[0m".data, ([] : List Char)]).2 (by decide)

/-- Line lists realizing visible widths `[5, 7, 5]` and `[3]`. -/
def linesMixed : List (List Char) := ["AAAAA".data, "BBBBBBB".data, "CCCCC".data]

def lineSingle : List (List Char) := ["CCC".data]

/-- C7: for every non-empty sample set the aggregator reports the minimum and
maximum of the samples (both are samples and they bound every sample), warns
inconsistent with the difference maximum minus minimum exactly when they
differ, and otherwise confirms consistency; visible widths `{5, 7, 5}` give
minimum 5, maximum 7, difference 2, inconsistent, and a single sample is
consistent. -/
theorem c7_aggregator :
    (∀ (lines : List (List Char)) (w : Nat) (ws : List Nat),
        visual_widths lines = w :: ws →
        ∃ mn mx, mn ∈ visual_widths lines ∧ mx ∈ visual_widths lines ∧
          (∀ u ∈ visual_widths lines, mn ≤ u ∧ u ≤ mx) ∧
          (mn ≠ mx → width_verdict lines = .inconsistent mn mx (mx - mn)) ∧
          (mn = mx → width_verdict lines = .consistent mn mx)) ∧
      width_verdict linesMixed = .inconsistent 5 7 2 ∧
      width_verdict lineSingle = .consistent 3 3 := by
  refine ⟨?_, by decide, by decide⟩
  intro lines w ws h
  have hvd : width_verdict lines =
      if ws.foldl min w ≠ ws.foldl max w
      then WidthVerdict.inconsistent (ws.foldl min w) (ws.foldl max w)
        (ws.foldl max w - ws.foldl min w)
      else WidthVerdict.consistent (ws.foldl min w) (ws.foldl max w) := by
    simp only [width_verdict, h]
  refine ⟨ws.foldl min w, ws.foldl max w, ?_, ?_, ?_, ?_, ?_⟩
  · rw [h]
    exact foldl_min_mem ws w
  · rw [h]
    exact foldl_max_mem ws w
  · intro u hu
    rw [h] at hu
    exact ⟨foldl_min_le ws w u hu, foldl_le_max ws w u hu⟩
  · intro hne
    rw [hvd, if_pos hne]
  · intro heq
    rw [hvd, if_neg (fun hne => hne heq)]

theorem c7_witness :
    ∃ mn mx, mn ∈ visual_widths linesMixed ∧ mx ∈ visual_widths linesMixed ∧
      (∀ u ∈ visual_widths linesMixed, mn ≤ u ∧ u ≤ mx) ∧
      (mn ≠ mx → width_verdict linesMixed = .inconsistent mn mx (mx - mn)) ∧
      (mn = mx → width_verdict linesMixed = .consistent mn mx) :=
  c7_aggregator.1 linesMixed 5 [7, 5] (by decide)

/-- C8: for every file system and list of paths, the driver produces exactly
one output per path in order; a path whose file cannot be opened, read or
decoded yields the single error output naming that path in place of its
report, and every other path still yields its report — no failure interrupts
the loop. -/
theorem c8_driver (fs : String → Option (List Char)) (files : List String) :
    (run_driver fs files).length = files.length ∧
      ∀ (i : Nat) (name : String), files[i]? = some name →
        (fs name = none → (run_driver fs files)[i]? = some (DriverOut.error name)) ∧
        (∀ content, fs name = some content →
          (run_driver fs files)[i]? =
            some (DriverOut.report name (analyze_frame (readlines content)))) := by
  constructor
  · exact List.length_map files _
  · intro i name hname
    constructor
    · intro hfs
      rw [run_driver, List.getElem?_map, hname]
      simp [hfs]
    · intro content hfs
      rw [run_driver, List.getElem?_map, hname]
      simp [hfs]

/-- File system with a single readable file, used to instantiate C8. -/
def fs0 : String → Option (List Char) :=
  fun f => if f = "present" then some "CD\n".data else none

theorem c8_witness :
    (run_driver fs0 ["missing", "present"]).length = 2 ∧
      (run_driver fs0 ["missing", "present"])[0]? = some (.error "missing") ∧
      (run_driver fs0 ["missing", "present"])[1]? =
        some (.report "present" (analyze_frame (readlines "CD\n".data))) :=
  ⟨(c8_driver fs0 ["missing", "present"]).1,
    ((c8_driver fs0 ["missing", "present"]).2 0 "missing" rfl).1 (by decide),
    ((c8_driver fs0 ["missing", "present"]).2 1 "present" rfl).2 "CD\n".data (by decide)⟩

/-- C9: the stripped string is a subsequence of the input, so the visible
length never exceeds the raw length (in particular in every line record), and
the visible length plus the number of character positions covered by matched
escape sequences equals the raw length. -/
theorem c9_subsequence :
    (∀ s : List Char, (strip_ansi s).Sublist s ∧ (strip_ansi s).length ≤ s.length ∧
        (strip_ansi s).length +
          ((List.range s.length).filter fun j => coveredB s j).length = s.length) ∧
      ∀ line : List Char, (analyze_line line).visual_len ≤ (analyze_line line).raw_len := by
  constructor
  · intro s
    have hsub := strip_sublist s
    refine ⟨hsub, hsub.length_le, ?_⟩
    have h2 : (strip_ansi s).length
        = ((List.range s.length).filter fun j => !coveredB s j).length := by
      rw [strip_eq_uncov s, uncovChars, List.length_map]
    rw [h2]
    have h3 := length_filter_split (fun j => coveredB s j) (List.range s.length)
    rw [List.length_range] at h3
    omega
  · intro line
    exact (strip_sublist (rstrip_nl line)).length_le

/-- C10: the newline-removal step deletes every trailing `'\n'` or `'\r'`, in
any number and combination (the removed suffix consists only of such
characters and the result ends in neither), and removes nothing else; for
example a line ending in `"\r\r\n"` loses exactly those three characters. -/
theorem c10_rstrip :
    (∀ line : List Char,
        (∃ t, line = rstrip_nl line ++ t ∧ ∀ c ∈ t, c = '\n' ∨ c = '\r') ∧
        (∀ c, (rstrip_nl line).getLast? = some c → ¬(c = '\n' ∨ c = '\r'))) ∧
      rstrip_nl "AB\r\r\n".data = "AB".data := by
  constructor
  · intro line
    exact ⟨rstrip_decomp line, fun c hc => rstrip_last hc⟩
  · decide

theorem c10_witness :
    (∃ t, "AB\r\n".data = rstrip_nl "AB\r\n".data ++ t ∧ ∀ c ∈ t, c = '\n' ∨ c = '\r') ∧
      ¬('B' = '\n' ∨ 'B' = '\r') :=
  ⟨(c10_rstrip.1 "AB\r\n".data).1,
    (c10_rstrip.1 "AB\r\n".data).2 'B' (by decide)⟩

end AnalyzeFrames
